import Mathlib

/-!
Verification of the Statistical-Envelope Control Loop (SECL) reference
implementation (`secl.py`).

Python floats are modelled as rationals (`ℚ`); Python ints as `ℤ`.
`sorted(xs)` is modelled by `List.insertionSort (· ≤ ·)`: for values in a
linear order the ascending sorted permutation is unique as a list of values,
so any correct sort has the same result.  Exceptions are modelled with
`Except String`.
-/

/-- Python `int(x)` applied to a float/rational: truncation toward zero. -/
def pyint (r : ℚ) : ℤ := if 0 ≤ r then ⌊r⌋ else ⌈r⌉

/-- Python list indexing `xs[i]`: a negative index wraps around once
(`xs[-1]` is the last element); anything still out of range raises
`IndexError`. -/
def pyIndex (xs : List ℚ) (i : ℤ) : Except String ℚ :=
  let j : ℤ := if i < 0 then i + xs.length else i
  if h : 0 ≤ j ∧ j < (xs.length : ℤ) then
    .ok (xs.get ⟨j.toNat, by omega⟩)
  else
    .error "IndexError: list index out of range"

/-- Python `sorted(xs)` (ascending). -/
def pysorted (xs : List ℚ) : List ℚ := List.insertionSort (· ≤ ·) xs

/-- `_quantile(xs, q)` from `secl.py`: sorted-list quantile with linear
interpolation between neighbours; raises on an empty list. -/
def _quantile (xs : List ℚ) (q : ℚ) : Except String ℚ :=
  if xs.isEmpty then .error "Cannot compute quantile of empty list."
  else
    let xs_sorted := pysorted xs
    let n := xs_sorted.length
    if n = 1 then pyIndex xs_sorted 0
    else
      -- position in [0, n-1]
      let pos : ℚ := q * ((n : ℚ) - 1)
      let i : ℤ := pyint pos
      let frac : ℚ := pos - (i : ℚ)
      if i ≥ (n : ℤ) - 1 then pyIndex xs_sorted (-1)
      else
        match pyIndex xs_sorted i, pyIndex xs_sorted (i + 1) with
        | .ok a, .ok b => .ok (a * (1 - frac) + b * frac)
        | .error e, _ => .error e
        | .ok _, .error e => .error e

/-- The state of a `SECLController` object: the configuration fields fixed by
`__init__` together with the mutable `gain` and the rolling window
`_history`. -/
structure SECLState where
  window_size : ℤ
  lower_q : ℚ
  upper_q : ℚ
  step_fraction : ℚ
  gain : ℚ
  min_gain : ℚ
  max_gain : ℚ
  warmup_samples : ℤ
  history : List ℚ
  deriving Repr, DecidableEq

/-- `SECLController.__init__`: validates `0 < lower_q < upper_q < 1`
(raising `ValueError` otherwise) and then builds the state with an empty
window.  `deque(maxlen=w)` itself raises when `w` is negative, which is also
modelled. -/
def mkController (window_size : ℤ) (lower_q upper_q step_fraction
    initial_gain min_gain max_gain : ℚ) (warmup_samples : ℤ) :
    Except String SECLState :=
  if ¬ (0 < lower_q ∧ lower_q < upper_q ∧ upper_q < 1) then
    .error "Require 0 < lower_q < upper_q < 1."
  else if window_size < 0 then
    .error "maxlen must be non-negative"
  else
    .ok { window_size := window_size, lower_q := lower_q, upper_q := upper_q,
          step_fraction := step_fraction, gain := initial_gain,
          min_gain := min_gain, max_gain := max_gain,
          warmup_samples := warmup_samples, history := [] }

/-- `deque(maxlen=cap).append(x)`: append on the right, evicting from the
left whatever exceeds the capacity.  (`mkController` guarantees
`0 ≤ cap`.) -/
def appendWindow (cap : ℤ) (w : List ℚ) (x : ℚ) : List ℚ :=
  (w ++ [x]).drop (((w.length : ℤ) + 1 - cap).toNat)

/-- `SECLController.update(measurement)`: append to the window; hold the gain
during warm-up; otherwise compare the measurement to the quantile envelope of
a snapshot of the window, adjust the gain multiplicatively, clamp it into
`[min_gain, max_gain]` and return it. -/
def update (s : SECLState) (measurement : ℚ) :
    Except String (SECLState × ℚ) :=
  let hist := appendWindow s.window_size s.history measurement
  -- Not enough data yet to estimate envelope: hold gain.
  if (hist.length : ℤ) < s.warmup_samples then
    .ok ({ s with history := hist }, s.gain)
  else
    match _quantile hist s.lower_q with
    | .error e => .error e
    | .ok low =>
      match _quantile hist s.upper_q with
      | .error e => .error e
      | .ok high =>
        let g1 : ℚ :=
          if measurement > high then s.gain * (1 - s.step_fraction)
          else if measurement < low then s.gain * (1 + s.step_fraction)
          else s.gain
        -- Clamp gain to safe range.
        let g2 : ℚ :=
          if g1 < s.min_gain then s.min_gain
          else if g1 > s.max_gain then s.max_gain
          else g1
        .ok ({ s with history := hist, gain := g2 }, g2)

/-- Feed a list of measurements through `update` one after the other,
collecting the returned gains. -/
def updateRun (s : SECLState) : List ℚ → Except String (SECLState × List ℚ)
  | [] => .ok (s, [])
  | m :: ms =>
    match update s m with
    | .error e => .error e
    | .ok (s', g) =>
      match updateRun s' ms with
      | .error e => .error e
      | .ok (s'', gs) => .ok (s'', g :: gs)

/-! ### The quantile algorithm as §4.1 of the spec states it

`quantileSpec` transcribes the spec's words: sort ascending; if N = 1 return
the sole element regardless of q; otherwise `pos = q * (N - 1)`,
`i = floor pos`, `frac = pos - i`; if `i ≥ N - 1` return the maximum element
(the last element of the ascending sort); otherwise interpolate between the
neighbours at `i` and `i + 1`. -/
def quantileSpec (xs : List ℚ) (q : ℚ) : ℚ :=
  let s := pysorted xs
  if s.length = 1 then s.headD 0
  else
    let pos : ℚ := q * ((s.length : ℚ) - 1)
    let i : ℤ := ⌊pos⌋
    let frac : ℚ := pos - (i : ℚ)
    if ((s.length : ℤ) - 1) ≤ i then s.getLastD 0
    else s.getD i.toNat 0 * (1 - frac) + s.getD (i.toNat + 1) 0 * frac

/-! ### Basic facts about the embedded Python primitives -/

theorem pysorted_perm (xs : List ℚ) : (pysorted xs).Perm xs :=
  List.perm_insertionSort _ xs

theorem pysorted_sorted (xs : List ℚ) : List.Sorted (· ≤ ·) (pysorted xs) :=
  List.sorted_insertionSort _ xs

theorem pysorted_length (xs : List ℚ) : (pysorted xs).length = xs.length :=
  (pysorted_perm xs).length_eq

theorem pysorted_mem {a : ℚ} {xs : List ℚ} : a ∈ pysorted xs ↔ a ∈ xs :=
  (pysorted_perm xs).mem_iff

theorem pysorted_ne_nil {xs : List ℚ} (h : xs ≠ []) : pysorted xs ≠ [] := by
  intro hcon
  apply h
  have := pysorted_length xs
  rw [hcon] at this
  exact List.length_eq_zero.mp this.symm

theorem pyIndex_ok (xs : List ℚ) (i : ℤ) (h0 : 0 ≤ i)
    (hlt : i < (xs.length : ℤ)) :
    pyIndex xs i = .ok (xs.get ⟨i.toNat, by omega⟩) := by
  have hj : ¬ i < 0 := by omega
  simp only [pyIndex, hj, if_false]
  rw [dif_pos ⟨h0, hlt⟩]

theorem pyIndex_neg_one (xs : List ℚ) (h : xs ≠ []) :
    pyIndex xs (-1) = .ok (xs.getLast h) := by
  have hlen : 1 ≤ xs.length := List.length_pos.mpr h
  have hj : (-1 : ℤ) < 0 := by omega
  have hidx : ((-1 : ℤ) + ↑xs.length).toNat = xs.length - 1 := by omega
  simp only [pyIndex, hj, if_true]
  rw [dif_pos ⟨by omega, by omega⟩, List.getLast_eq_get]
  simp only [hidx]

theorem pyIndex_mem {xs : List ℚ} {i : ℤ} {v : ℚ}
    (h : pyIndex xs i = .ok v) : v ∈ xs := by
  simp only [pyIndex] at h
  split at h <;> split at h
  all_goals
    first
    | (rw [Except.ok.injEq] at h; rw [← h]; exact List.get_mem _ _ _)
    | exact absurd h (by simp)

theorem appendWindow_length (cap : ℤ) (w : List ℚ) (x : ℚ) (hcap : 0 ≤ cap) :
    (appendWindow cap w x).length = min (w.length + 1) cap.toNat := by
  simp only [appendWindow, List.length_drop, List.length_append,
    List.length_singleton]
  omega

theorem appendWindow_length_le (cap : ℤ) (w : List ℚ) (x : ℚ) :
    (appendWindow cap w x).length ≤ w.length + 1 := by
  simp only [appendWindow, List.length_drop, List.length_append,
    List.length_singleton]
  omega

theorem getLastD_eq_getLast {s : List ℚ} (h : s ≠ []) (d : ℚ) :
    s.getLastD d = s.getLast h := by
  rw [List.getLastD_eq_getLast?, List.getLast?_eq_getLast _ h]
  rfl

theorem headD_eq_get {s : List ℚ} (h : 0 < s.length) (d : ℚ) :
    s.headD d = s.get ⟨0, h⟩ := by
  cases s with
  | nil => simp at h
  | cons a t => rfl

theorem sorted_head_le {s : List ℚ} (hs : List.Sorted (· ≤ ·) s) {y : ℚ}
    (hy : y ∈ s) (h0 : 0 < s.length) : s.get ⟨0, h0⟩ ≤ y := by
  obtain ⟨k, rfl⟩ := List.mem_iff_get.mp hy
  exact hs.rel_get_of_le (by simp [Fin.le_def])

theorem sorted_le_getLast {s : List ℚ} (hs : List.Sorted (· ≤ ·) s) {y : ℚ}
    (hy : y ∈ s) (hne : s ≠ []) : y ≤ s.getLast hne := by
  obtain ⟨k, rfl⟩ := List.mem_iff_get.mp hy
  rw [List.getLast_eq_get]
  apply hs.rel_get_of_le
  rw [Fin.le_def]
  have := k.isLt
  simp only []
  omega

/-- On a non-empty list and a fraction `q ∈ [0, 1]`, `_quantile` succeeds and
returns exactly the value described by §4.1 of the spec. -/
theorem quantile_eq_spec (xs : List ℚ) (q : ℚ) (hne : xs ≠ [])
    (hq0 : 0 ≤ q) (hq1 : q ≤ 1) :
    _quantile xs q = .ok (quantileSpec xs q) := by
  have hsne : pysorted xs ≠ [] := pysorted_ne_nil hne
  have hslen : 0 < (pysorted xs).length := List.length_pos.mpr hsne
  have hempty : ¬ xs.isEmpty = true := by
    simp [List.isEmpty_iff, hne]
  simp only [_quantile, quantileSpec]
  rw [if_neg hempty]
  by_cases h1 : (pysorted xs).length = 1
  · rw [if_pos h1, if_pos h1]
    rw [pyIndex_ok _ 0 le_rfl (by exact_mod_cast hslen)]
    rw [headD_eq_get hslen]
    rfl
  · rw [if_neg h1, if_neg h1]
    have hn2 : 2 ≤ (pysorted xs).length := by omega
    have hn2q : (2 : ℚ) ≤ ((pysorted xs).length : ℚ) := by exact_mod_cast hn2
    have hpos0 : 0 ≤ q * (((pysorted xs).length : ℚ) - 1) :=
      mul_nonneg hq0 (by linarith)
    have hpyint : pyint (q * (((pysorted xs).length : ℚ) - 1)) =
        ⌊q * (((pysorted xs).length : ℚ) - 1)⌋ := by
      simp [pyint, hpos0]
    have hposle : q * (((pysorted xs).length : ℚ) - 1) ≤
        ((pysorted xs).length : ℚ) - 1 := by nlinarith
    have hfloor_le : ⌊q * (((pysorted xs).length : ℚ) - 1)⌋ ≤
        ((pysorted xs).length : ℤ) - 1 := by
      have h := le_trans (Int.floor_le (q * (((pysorted xs).length : ℚ) - 1)))
        hposle
      have h2 : ((⌊q * (((pysorted xs).length : ℚ) - 1)⌋ : ℤ) : ℚ) ≤
          ((((pysorted xs).length : ℤ) - 1 : ℤ) : ℚ) := by push_cast; push_cast at h; linarith
      exact_mod_cast h2
    have hfloor0 : 0 ≤ ⌊q * (((pysorted xs).length : ℚ) - 1)⌋ :=
      Int.floor_nonneg.mpr hpos0
    rw [hpyint]
    by_cases hbig : ((pysorted xs).length : ℤ) - 1 ≤
        ⌊q * (((pysorted xs).length : ℚ) - 1)⌋
    · rw [if_pos hbig, if_pos hbig]
      rw [pyIndex_neg_one _ hsne, getLastD_eq_getLast hsne]
    · rw [if_neg hbig, if_neg hbig]
      have hlt : ⌊q * (((pysorted xs).length : ℚ) - 1)⌋ <
          ((pysorted xs).length : ℤ) - 1 := by omega
      rw [pyIndex_ok _ _ hfloor0 (by omega),
        pyIndex_ok _ (⌊q * (((pysorted xs).length : ℚ) - 1)⌋ + 1)
          (by omega) (by omega)]
      have htn : (⌊q * (((pysorted xs).length : ℚ) - 1)⌋ + 1).toNat =
          ⌊q * (((pysorted xs).length : ℚ) - 1)⌋.toNat + 1 := by omega
      simp only [htn, List.get_eq_getElem]
      rw [List.getD_eq_getElem _ _ (by
        have := List.length_pos.mpr hsne
        omega),
        List.getD_eq_getElem _ _ (by omega)]

/-- `_quantile` succeeds on every non-empty input with `q ∈ [0, 1]`. -/
theorem quantile_ok (xs : List ℚ) (q : ℚ) (hne : xs ≠ [])
    (hq0 : 0 ≤ q) (hq1 : q ≤ 1) : ∃ v, _quantile xs q = .ok v :=
  ⟨quantileSpec xs q, quantile_eq_spec xs q hne hq0 hq1⟩

theorem quantileSpec_zero (xs : List ℚ) (hne : xs ≠ []) :
    quantileSpec xs 0 =
      (pysorted xs).get ⟨0, List.length_pos.mpr (pysorted_ne_nil hne)⟩ := by
  have hsne := pysorted_ne_nil hne
  have hslen := List.length_pos.mpr hsne
  simp only [quantileSpec]
  by_cases h1 : (pysorted xs).length = 1
  · rw [if_pos h1, headD_eq_get hslen]
  · rw [if_neg h1]
    have hn2 : 2 ≤ (pysorted xs).length := by omega
    have hfalse : ¬ ((((pysorted xs).length : ℤ) - 1) ≤
        ⌊(0 : ℚ) * (((pysorted xs).length : ℚ) - 1)⌋) := by
      rw [zero_mul, Int.floor_zero]
      omega
    rw [if_neg hfalse, zero_mul, Int.floor_zero]
    rw [List.getD_eq_getElem _ _ (by omega), List.get_eq_getElem]
    push_cast
    ring_nf

theorem quantileSpec_one (xs : List ℚ) (hne : xs ≠ []) :
    quantileSpec xs 1 = (pysorted xs).getLast (pysorted_ne_nil hne) := by
  have hsne := pysorted_ne_nil hne
  have hslen := List.length_pos.mpr hsne
  simp only [quantileSpec]
  by_cases h1 : (pysorted xs).length = 1
  · rw [if_pos h1]
    obtain ⟨a, ha⟩ := List.length_eq_one.mp h1
    simp [ha]
  · rw [if_neg h1]
    have hcast : (1 : ℚ) * (((pysorted xs).length : ℚ) - 1) =
        ((((pysorted xs).length : ℤ) - 1 : ℤ) : ℚ) := by push_cast; ring
    rw [if_pos (by rw [hcast, Int.floor_intCast])]
    exact getLastD_eq_getLast hsne 0

/-- The spec-side quantile of a constant-valued list is that constant: every
branch returns either an element of the list or an interpolation of two equal
elements. -/
theorem quantileSpec_const {xs : List ℚ} {c : ℚ} (hne : xs ≠ [])
    (hc : ∀ x ∈ xs, x = c) (q : ℚ) (hq0 : 0 ≤ q) (hq1 : q ≤ 1) :
    quantileSpec xs q = c := by
  have hsne := pysorted_ne_nil hne
  have hslen := List.length_pos.mpr hsne
  have hmem : ∀ y ∈ pysorted xs, y = c := fun y hy => hc y (pysorted_mem.mp hy)
  simp only [quantileSpec]
  by_cases h1 : (pysorted xs).length = 1
  · rw [if_pos h1, headD_eq_get hslen]
    exact hmem _ (List.get_mem _ _ _)
  · rw [if_neg h1]
    have hn2 : 2 ≤ (pysorted xs).length := by omega
    have hn2q : (2 : ℚ) ≤ ((pysorted xs).length : ℚ) := by exact_mod_cast hn2
    have hpos0 : 0 ≤ q * (((pysorted xs).length : ℚ) - 1) :=
      mul_nonneg hq0 (by linarith)
    have hfloor0 : 0 ≤ ⌊q * (((pysorted xs).length : ℚ) - 1)⌋ :=
      Int.floor_nonneg.mpr hpos0
    by_cases hbig : ((((pysorted xs).length : ℤ) - 1) ≤
        ⌊q * (((pysorted xs).length : ℚ) - 1)⌋)
    · rw [if_pos hbig, getLastD_eq_getLast hsne]
      exact hmem _ (List.getLast_mem hsne)
    · rw [if_neg hbig]
      have hlt : ⌊q * (((pysorted xs).length : ℚ) - 1)⌋ <
          ((pysorted xs).length : ℤ) - 1 := by omega
      rw [List.getD_eq_getElem _ _ (by omega),
        List.getD_eq_getElem _ _ (by omega)]
      rw [hmem _ (List.getElem_mem _), hmem _ (List.getElem_mem _)]
      ring

/-- `_quantile` of a non-empty constant-valued list is that constant, for any
fraction `q ∈ [0, 1]`. -/
theorem quantile_const {xs : List ℚ} {c : ℚ} (hne : xs ≠ [])
    (hc : ∀ x ∈ xs, x = c) (q : ℚ) (hq0 : 0 ≤ q) (hq1 : q ≤ 1) :
    _quantile xs q = .ok c := by
  rw [quantile_eq_spec xs q hne hq0 hq1, quantileSpec_const hne hc q hq0 hq1]

/-! ### Facts about `update` -/

/-- The gain-adjustment rule of `update` (lines 106-111 of `secl.py`),
factored out for stating theorems. -/
def adjustGain (s : SECLState) (m low high : ℚ) : ℚ :=
  if m > high then s.gain * (1 - s.step_fraction)
  else if m < low then s.gain * (1 + s.step_fraction)
  else s.gain

/-- The clamping rule of `update` (lines 114-118 of `secl.py`). -/
def clampGain (s : SECLState) (g : ℚ) : ℚ :=
  if g < s.min_gain then s.min_gain
  else if g > s.max_gain then s.max_gain
  else g

/-- During warm-up (window still below `warmup_samples` after the append),
`update` only records the measurement and returns the unchanged gain. -/
theorem update_warmup (s : SECLState) (m : ℚ)
    (h : ((appendWindow s.window_size s.history m).length : ℤ) <
      s.warmup_samples) :
    update s m =
      .ok ({ s with history := appendWindow s.window_size s.history m },
        s.gain) := by
  simp only [update]
  rw [if_pos h]

/-- Past warm-up, `update` computes the two quantiles of the appended window,
adjusts the gain by `adjustGain`, clamps it with `clampGain`, stores it and
returns it. -/
theorem update_adapt (s : SECLState) (m low high : ℚ)
    (hw : ¬ ((appendWindow s.window_size s.history m).length : ℤ) <
      s.warmup_samples)
    (hl : _quantile (appendWindow s.window_size s.history m) s.lower_q =
      .ok low)
    (hh : _quantile (appendWindow s.window_size s.history m) s.upper_q =
      .ok high) :
    update s m =
      .ok ({ s with
             history := appendWindow s.window_size s.history m,
             gain := clampGain s (adjustGain s m low high) },
        clampGain s (adjustGain s m low high)) := by
  simp only [update, adjustGain, clampGain]
  rw [if_neg hw, hl, hh]

/-- A successful `update` appends to the window, returns the stored gain, and
touches no configuration field. -/
theorem update_fields {s : SECLState} {m : ℚ} {s' : SECLState} {g : ℚ}
    (h : update s m = .ok (s', g)) :
    s'.history = appendWindow s.window_size s.history m ∧
    g = s'.gain ∧
    s'.window_size = s.window_size ∧ s'.lower_q = s.lower_q ∧
    s'.upper_q = s.upper_q ∧ s'.step_fraction = s.step_fraction ∧
    s'.min_gain = s.min_gain ∧ s'.max_gain = s.max_gain ∧
    s'.warmup_samples = s.warmup_samples := by
  simp only [update] at h
  split at h
  · rw [Except.ok.injEq, Prod.mk.injEq] at h
    obtain ⟨hA, hB⟩ := h
    subst hA
    subst hB
    simp
  · split at h
    · exact absurd h (by simp)
    · split at h
      · exact absurd h (by simp)
      · rw [Except.ok.injEq, Prod.mk.injEq] at h
        obtain ⟨hA, hB⟩ := h
        subst hA
        subst hB
        simp

/-- A successful `update` keeps the gain within `[min_gain, max_gain]`,
provided it was within that range before the call. -/
theorem update_gain_bounds {s : SECLState} {m : ℚ} {s' : SECLState} {g : ℚ}
    (h : update s m = .ok (s', g)) (h1 : s.min_gain ≤ s.gain)
    (h2 : s.gain ≤ s.max_gain) :
    s.min_gain ≤ s'.gain ∧ s'.gain ≤ s.max_gain := by
  simp only [update] at h
  split at h
  · rw [Except.ok.injEq, Prod.mk.injEq] at h
    obtain ⟨hA, hB⟩ := h
    subst hA
    exact ⟨h1, h2⟩
  · split at h
    · exact absurd h (by simp)
    · split at h
      · exact absurd h (by simp)
      · rw [Except.ok.injEq, Prod.mk.injEq] at h
        obtain ⟨hA, hB⟩ := h
        subst hA
        simp only []
        constructor <;> (split_ifs <;> linarith)

/-- The suffix of `l` that a capacity-`cap` window would retain. -/
def lastN (cap : ℤ) (l : List ℚ) : List ℚ :=
  l.drop (((l.length : ℤ) - cap).toNat)

theorem appendWindow_eq_lastN (cap : ℤ) (w : List ℚ) (x : ℚ) :
    appendWindow cap w x = lastN cap (w ++ [x]) := by
  have h : (((w.length : ℤ) + 1 - cap).toNat) =
      ((((w ++ [x]).length : ℕ) : ℤ) - cap).toNat := by
    simp only [List.length_append, List.length_singleton]
    omega
  simp only [appendWindow, lastN, h]

theorem lastN_append_lastN (cap : ℤ) (a b : List ℚ) (hcap : 0 ≤ cap) :
    lastN cap (lastN cap a ++ b) = lastN cap (a ++ b) := by
  have hd1 : (((a.length : ℤ) - cap).toNat) ≤ a.length := by omega
  simp only [lastN]
  rw [← List.drop_append_of_le_length hd1, List.drop_drop]
  congr 1
  simp only [List.length_drop, List.length_append]
  omega

theorem lastN_length_le (cap : ℤ) (l : List ℚ) (hcap : 0 ≤ cap) :
    ((lastN cap l).length : ℤ) ≤ cap := by
  simp only [lastN, List.length_drop]
  omega

theorem lastN_of_le {cap : ℤ} {l : List ℚ} (h : (l.length : ℤ) ≤ cap) :
    lastN cap l = l := by
  simp only [lastN]
  rw [(by omega : ((l.length : ℤ) - cap).toNat = 0)]
  rfl

/-- Running a batch of measurements from any state: the final window is the
capacity-bounded suffix of the old window extended by all the measurements,
and the configuration fields are untouched. -/
theorem updateRun_history (ms : List ℚ) : ∀ (s sf : SECLState)
    (outs : List ℚ), updateRun s ms = .ok (sf, outs) →
    (0 : ℤ) ≤ s.window_size →
    (s.history.length : ℤ) ≤ s.window_size →
    sf.window_size = s.window_size ∧ sf.warmup_samples = s.warmup_samples ∧
    sf.lower_q = s.lower_q ∧ sf.upper_q = s.upper_q ∧
    sf.min_gain = s.min_gain ∧ sf.max_gain = s.max_gain ∧
    sf.history = lastN s.window_size (s.history ++ ms) := by
  induction ms with
  | nil =>
    intro s sf outs h hcap hlen
    simp only [updateRun] at h
    rw [Except.ok.injEq, Prod.mk.injEq] at h
    obtain ⟨hA, hB⟩ := h
    subst hA
    simp [lastN_of_le hlen]
  | cons m ms ih =>
    intro s sf outs h hcap hlen
    cases hu : update s m with
    | error e =>
      simp only [updateRun, hu] at h
      exact absurd h (by simp)
    | ok p =>
      obtain ⟨s1, g⟩ := p
      cases hr : updateRun s1 ms with
      | error e =>
        simp only [updateRun, hu, hr] at h
        exact absurd h (by simp)
      | ok p2 =>
        obtain ⟨s2, gs⟩ := p2
        simp only [updateRun, hu, hr] at h
        rw [Except.ok.injEq, Prod.mk.injEq] at h
        obtain ⟨hA, hB⟩ := h
        subst hA
        obtain ⟨hhist, hgain, hws, hlq, huq, hsf, hmn, hmx, hwm⟩ :=
          update_fields hu
        have hcap1 : (0 : ℤ) ≤ s1.window_size := by rw [hws]; exact hcap
        have hlen1 : (s1.history.length : ℤ) ≤ s1.window_size := by
          rw [hhist, hws, appendWindow_eq_lastN]
          exact lastN_length_le _ _ hcap
        obtain ⟨a1, a2, a3, a4, a5, a6, a7⟩ := ih s1 s2 gs hr hcap1 hlen1
        refine ⟨by rw [a1, hws], by rw [a2, hwm], by rw [a3, hlq],
          by rw [a4, huq], by rw [a5, hmn], by rw [a6, hmx], ?_⟩
        rw [a7, hhist, hws, appendWindow_eq_lastN, lastN_append_lastN _ _ _ hcap]
        rw [List.append_assoc]
        rfl

theorem appendWindow_mem {cap : ℤ} {w : List ℚ} {x y : ℚ}
    (h : y ∈ appendWindow cap w x) : y ∈ w ++ [x] :=
  List.mem_of_mem_drop h

theorem appendWindow_ne_nil (cap : ℤ) (w : List ℚ) (x : ℚ)
    (hcap : 1 ≤ cap) : appendWindow cap w x ≠ [] := by
  apply List.length_pos.mp
  rw [appendWindow_length cap w x (by omega)]
  omega

/-- With a capacity of at least one and both quantile fractions in `[0, 1]`,
`update` always succeeds. -/
theorem update_ok (s : SECLState) (m : ℚ) (hcap : 1 ≤ s.window_size)
    (hlq0 : 0 ≤ s.lower_q) (hlq1 : s.lower_q ≤ 1)
    (huq0 : 0 ≤ s.upper_q) (huq1 : s.upper_q ≤ 1) :
    ∃ s' g, update s m = .ok (s', g) := by
  by_cases hw : ((appendWindow s.window_size s.history m).length : ℤ) <
      s.warmup_samples
  · exact ⟨_, _, update_warmup s m hw⟩
  · have hne := appendWindow_ne_nil s.window_size s.history m hcap
    obtain ⟨lo, hlo⟩ := quantile_ok _ s.lower_q hne hlq0 hlq1
    obtain ⟨hi, hhi⟩ := quantile_ok _ s.upper_q hne huq0 huq1
    exact ⟨_, _, update_adapt s m lo hi hw hlo hhi⟩

/-- Run-level gain invariant: once the stored gain is inside
`[min_gain, max_gain]`, every returned gain and the final stored gain stay
inside that range. -/
theorem updateRun_gain_inv (ms : List ℚ) : ∀ (s sf : SECLState)
    (outs : List ℚ), updateRun s ms = .ok (sf, outs) →
    s.min_gain ≤ s.gain → s.gain ≤ s.max_gain →
    sf.min_gain = s.min_gain ∧ sf.max_gain = s.max_gain ∧
    s.min_gain ≤ sf.gain ∧ sf.gain ≤ s.max_gain ∧
    ∀ g ∈ outs, s.min_gain ≤ g ∧ g ≤ s.max_gain := by
  induction ms with
  | nil =>
    intro s sf outs h h1 h2
    simp only [updateRun] at h
    rw [Except.ok.injEq, Prod.mk.injEq] at h
    obtain ⟨hA, hB⟩ := h
    subst hA
    subst hB
    simp [h1, h2]
  | cons m ms ih =>
    intro s sf outs h h1 h2
    cases hu : update s m with
    | error e =>
      simp only [updateRun, hu] at h
      exact absurd h (by simp)
    | ok p =>
      obtain ⟨s1, g⟩ := p
      cases hr : updateRun s1 ms with
      | error e =>
        simp only [updateRun, hu, hr] at h
        exact absurd h (by simp)
      | ok p2 =>
        obtain ⟨s2, gs⟩ := p2
        simp only [updateRun, hu, hr] at h
        rw [Except.ok.injEq, Prod.mk.injEq] at h
        obtain ⟨hA, hB⟩ := h
        subst hA
        subst hB
        obtain ⟨hhist, hgain, hws, hlq, huq, hstep, hmn, hmx, hwm⟩ :=
          update_fields hu
        obtain ⟨hb1, hb2⟩ := update_gain_bounds hu h1 h2
        have h1' : s1.min_gain ≤ s1.gain := by rw [hmn]; exact hb1
        have h2' : s1.gain ≤ s1.max_gain := by rw [hmx]; exact hb2
        obtain ⟨c1, c2, c3, c4, c5⟩ := ih s1 s2 gs hr h1' h2'
        rw [hmn] at c1 c3
        rw [hmx] at c2 c4
        refine ⟨c1, c2, c3, c4, ?_⟩
        intro gg hg
        rcases List.mem_cons.mp hg with hgg | hgg
        · subst hgg
          rw [hgain]
          exact ⟨hb1, hb2⟩
        · obtain ⟨t1, t2⟩ := c5 gg hgg
          rw [hmn] at t1
          rw [hmx] at t2
          exact ⟨t1, t2⟩

/-- Run-level warm-up: while the window cannot reach `warmup_samples`, every
call returns the unchanged gain. -/
theorem updateRun_warmup (ms : List ℚ) : ∀ (s : SECLState),
    ((s.history.length : ℤ) + ms.length < s.warmup_samples) →
    ∃ sf, updateRun s ms = .ok (sf, List.replicate ms.length s.gain) ∧
      sf.gain = s.gain := by
  induction ms with
  | nil =>
    intro s _
    exact ⟨s, by simp [updateRun], rfl⟩
  | cons m ms ih =>
    intro s h
    simp only [List.length_cons] at h
    push_cast at h
    have hle := appendWindow_length_le s.window_size s.history m
    have hlen1 : ((appendWindow s.window_size s.history m).length : ℤ) <
        s.warmup_samples := by omega
    have hu := update_warmup s m hlen1
    have hrec : (((appendWindow s.window_size s.history m).length : ℤ)
        + ms.length < s.warmup_samples) := by omega
    obtain ⟨sf, hrun, hgain⟩ :=
      ih { s with history := appendWindow s.window_size s.history m } hrec
    refine ⟨sf, ?_, hgain⟩
    simp only [updateRun, hu, hrun, List.length_cons, List.replicate_succ]

/-- A post-warm-up `update` with a measurement equal to the constant value of
the whole window leaves an in-range gain unchanged: both quantiles equal the
measurement, the in-band branch is taken, and the clamp is a no-op. -/
theorem update_const_step {s : SECLState} {c : ℚ}
    (hlq0 : 0 ≤ s.lower_q) (hlq1 : s.lower_q ≤ 1)
    (huq0 : 0 ≤ s.upper_q) (huq1 : s.upper_q ≤ 1)
    (hcap : 1 ≤ s.window_size)
    (hlen : (s.history.length : ℤ) ≤ s.window_size)
    (hwarm : s.warmup_samples ≤ (s.history.length : ℤ))
    (hconst : ∀ x ∈ s.history, x = c)
    (h1 : s.min_gain ≤ s.gain) (h2 : s.gain ≤ s.max_gain) :
    update s c =
      .ok ({ s with history := appendWindow s.window_size s.history c },
        s.gain) := by
  have hne := appendWindow_ne_nil s.window_size s.history c hcap
  have hconst1 : ∀ x ∈ appendWindow s.window_size s.history c, x = c := by
    intro x hx
    rcases List.mem_append.mp (appendWindow_mem hx) with hx1 | hx1
    · exact hconst x hx1
    · simpa using hx1
  have hwlen : ¬ ((appendWindow s.window_size s.history c).length : ℤ) <
      s.warmup_samples := by
    rw [appendWindow_length s.window_size s.history c (by omega)]
    push_neg
    omega
  have hlo := quantile_const hne hconst1 s.lower_q hlq0 hlq1
  have hhi := quantile_const hne hconst1 s.upper_q huq0 huq1
  have h := update_adapt s c c c hwlen hlo hhi
  rw [h]
  have hadj : adjustGain s c c c = s.gain := by
    simp [adjustGain]
  have hclamp : clampGain s s.gain = s.gain := by
    simp only [clampGain]
    rw [if_neg (by linarith), if_neg (by linarith)]
  rw [hadj, hclamp]

/-- Run-level version: a constant-valued, fully warmed-up window plus a run of
identical measurements never moves an in-range gain. -/
theorem updateRun_const (k : ℕ) : ∀ (s : SECLState) (c : ℚ),
    0 ≤ s.lower_q → s.lower_q ≤ 1 → 0 ≤ s.upper_q → s.upper_q ≤ 1 →
    1 ≤ s.window_size → (s.history.length : ℤ) ≤ s.window_size →
    s.warmup_samples ≤ (s.history.length : ℤ) →
    (∀ x ∈ s.history, x = c) →
    s.min_gain ≤ s.gain → s.gain ≤ s.max_gain →
    ∃ sf, updateRun s (List.replicate k c) =
        .ok (sf, List.replicate k s.gain) ∧ sf.gain = s.gain := by
  induction k with
  | zero =>
    intro s c _ _ _ _ _ _ _ _ _ _
    exact ⟨s, by simp [updateRun], rfl⟩
  | succ k ih =>
    intro s c hlq0 hlq1 huq0 huq1 hcap hlen hwarm hconst h1 h2
    have hu := update_const_step hlq0 hlq1 huq0 huq1 hcap hlen hwarm hconst
      h1 h2
    have hlen1 : (((appendWindow s.window_size s.history c).length : ℕ) : ℤ)
        ≤ s.window_size := by
      rw [appendWindow_length s.window_size s.history c (by omega)]
      push_cast
      omega
    have hwarm1 : s.warmup_samples ≤
        ((appendWindow s.window_size s.history c).length : ℤ) := by
      rw [appendWindow_length s.window_size s.history c (by omega)]
      push_cast
      omega
    have hconst1 : ∀ x ∈ appendWindow s.window_size s.history c, x = c := by
      intro x hx
      rcases List.mem_append.mp (appendWindow_mem hx) with hx1 | hx1
      · exact hconst x hx1
      · simpa using hx1
    obtain ⟨sf, hrun, hgain⟩ :=
      ih { s with history := appendWindow s.window_size s.history c } c
        hlq0 hlq1 huq0 huq1 hcap hlen1 hwarm1 hconst1 h1 h2
    refine ⟨sf, ?_, hgain⟩
    simp only [List.replicate_succ, updateRun, hu, hrun]

/-- A post-warm-up `update` whose measurement lies strictly above the
recomputed upper quantile multiplies the gain by `1 - step_fraction` and
clamps: with a positive step and `0 < min_gain ≤ max_gain` the stored gain
strictly decreases while it exceeds `min_gain`, never drops below `min_gain`,
and stays put once it sits at `min_gain`. -/
theorem update_above_high (s : SECLState) (m low high : ℚ)
    (hw : ¬ ((appendWindow s.window_size s.history m).length : ℤ) <
      s.warmup_samples)
    (hl : _quantile (appendWindow s.window_size s.history m) s.lower_q =
      .ok low)
    (hh : _quantile (appendWindow s.window_size s.history m) s.upper_q =
      .ok high)
    (hm : high < m)
    (hstep : 0 < s.step_fraction) (hmin0 : 0 < s.min_gain)
    (hminmax : s.min_gain ≤ s.max_gain) :
    ∃ s', update s m = .ok (s', s'.gain) ∧
      (s.min_gain < s.gain → s'.gain < s.gain) ∧
      (s.gain = s.min_gain → s'.gain = s.min_gain) ∧
      (s.min_gain ≤ s.gain → s.min_gain ≤ s'.gain) := by
  have hadj : adjustGain s m low high = s.gain * (1 - s.step_fraction) := by
    simp only [adjustGain]
    rw [if_pos hm]
  refine ⟨_, update_adapt s m low high hw hl hh, ?_, ?_, ?_⟩
  · intro hg
    simp only [hadj, clampGain]
    have hgain0 : 0 < s.gain := lt_trans hmin0 hg
    have hlt : s.gain * (1 - s.step_fraction) < s.gain := by nlinarith
    split_ifs with hA hB
    · linarith
    · linarith
    · exact hlt
  · intro hg
    simp only [hadj, clampGain]
    rw [hg]
    rw [if_pos (by nlinarith)]
  · intro hg
    simp only [hadj, clampGain]
    split_ifs with hA hB
    · linarith
    · linarith
    · linarith

theorem appendWindow_mem_self (cap : ℤ) (w : List ℚ) (x : ℚ)
    (hcap : 1 ≤ cap) : x ∈ appendWindow cap w x := by
  simp only [appendWindow]
  rw [List.drop_append_of_le_length (by omega)]
  simp

/-! ### Claim theorems -/

/-- C3: the quantile estimator follows the stated algorithm: on every
non-empty sequence with `q ∈ [0, 1]` it returns exactly the §4.1 value
`quantileSpec` (sole element when N = 1, maximum when `⌊q(N-1)⌋ ≥ N-1`,
linear interpolation otherwise); consequently `q = 0` gives the minimum,
`q = 1` the maximum, a singleton returns its sole element for every `q`, and
`_quantile [1,2,3,4] (1/2) = 5/2`. -/
theorem claim3_quantile_algorithm :
    (∀ (xs : List ℚ) (q : ℚ), xs ≠ [] → 0 ≤ q → q ≤ 1 →
      _quantile xs q = .ok (quantileSpec xs q)) ∧
    (∀ xs : List ℚ, xs ≠ [] → ∃ m, _quantile xs 0 = .ok m ∧ m ∈ xs ∧
      ∀ y ∈ xs, m ≤ y) ∧
    (∀ xs : List ℚ, xs ≠ [] → ∃ M, _quantile xs 1 = .ok M ∧ M ∈ xs ∧
      ∀ y ∈ xs, y ≤ M) ∧
    (∀ v q : ℚ, _quantile [v] q = .ok v) ∧
    _quantile [1, 2, 3, 4] (1/2) = .ok (5/2) := by
  refine ⟨quantile_eq_spec, ?_, ?_, ?_, ?_⟩
  · intro xs hne
    have hslen := List.length_pos.mpr (pysorted_ne_nil hne)
    refine ⟨(pysorted xs).get ⟨0, hslen⟩, ?_, ?_, ?_⟩
    · rw [quantile_eq_spec xs 0 hne le_rfl zero_le_one,
        quantileSpec_zero xs hne]
    · exact pysorted_mem.mp (List.get_mem _ _ _)
    · intro y hy
      exact sorted_head_le (pysorted_sorted xs) (pysorted_mem.mpr hy) hslen
  · intro xs hne
    have hsne := pysorted_ne_nil hne
    refine ⟨(pysorted xs).getLast hsne, ?_, ?_, ?_⟩
    · rw [quantile_eq_spec xs 1 hne zero_le_one le_rfl,
        quantileSpec_one xs hne]
    · exact pysorted_mem.mp (List.getLast_mem hsne)
    · intro y hy
      exact sorted_le_getLast (pysorted_sorted xs) (pysorted_mem.mpr hy) hsne
  · intro v q
    simp [_quantile, pysorted, List.insertionSort, pyIndex]
  · simp [_quantile, pysorted, List.insertionSort, List.orderedInsert,
      pyint, pyIndex]
    norm_num [Int.fract, show Int.toNat 2 = 2 from rfl]

/-- C3 witness: the general conformance conjunct applied at a concrete
input. -/
theorem claim3_quantile_algorithm_wit :
    _quantile [2, 1] (1/2) = .ok (quantileSpec [2, 1] (1/2)) :=
  claim3_quantile_algorithm.1 [2, 1] (1/2) (by simp) (by norm_num)
    (by norm_num)

/-- C5: for a configuration meeting the §3 constraints (in particular
`window_size ≥ 1` and `0 < lower_q < upper_q < 1`), `update` never fails on
any finite measurement: the appended snapshot is non-empty, so the quantile
estimator's empty-input branch is unreachable. -/
theorem claim5_update_never_fails (s : SECLState) (m : ℚ)
    (hcap : 1 ≤ s.window_size) (hlq : 0 < s.lower_q)
    (hord : s.lower_q < s.upper_q) (huq : s.upper_q < 1) :
    (∃ s' g, update s m = .ok (s', g)) ∧
    appendWindow s.window_size s.history m ≠ [] :=
  ⟨update_ok s m hcap (le_of_lt hlq) (by linarith) (by linarith)
      (le_of_lt huq),
    appendWindow_ne_nil _ _ _ hcap⟩

/-- C5 witness: a concrete controller state and measurement. -/
theorem claim5_update_never_fails_wit :
    (∃ s' g,
      update ⟨1, 1/4, 3/4, 1/20, 1, 1/10, 10, 0, []⟩ 5 = .ok (s', g)) ∧
    appendWindow (1 : ℤ) [] 5 ≠ [] :=
  claim5_update_never_fails ⟨1, 1/4, 3/4, 1/20, 1, 1/10, 10, 0, []⟩ 5
    (by norm_num) (by norm_num) (by norm_num) (by norm_num)

/-- C4: warm-up hold — for `warmup_samples = W`, every run of at most `W - 1`
measurements from a fresh controller returns `initial_gain` on every call and
leaves the stored gain at `initial_gain`; and any single `update` whose
appended window is still below `warmup_samples` returns the gain without
modifying it. -/
theorem claim4_warmup_hold :
    (∀ (ws : ℤ) (lq uq sf ig mn mx : ℚ) (W : ℤ) (s0 : SECLState)
      (ms : List ℚ),
      mkController ws lq uq sf ig mn mx W = .ok s0 →
      (ms.length : ℤ) < W →
      ∃ send, updateRun s0 ms = .ok (send, List.replicate ms.length ig) ∧
        send.gain = ig) ∧
    (∀ (s : SECLState) (m : ℚ),
      ((appendWindow s.window_size s.history m).length : ℤ) <
        s.warmup_samples →
      update s m =
        .ok ({ s with history := appendWindow s.window_size s.history m },
          s.gain)) := by
  constructor
  · intro ws lq uq sf ig mn mx W s0 ms hmk hlen
    simp only [mkController] at hmk
    split at hmk
    · exact absurd hmk (by simp)
    · split at hmk
      · exact absurd hmk (by simp)
      · rw [Except.ok.injEq] at hmk
        subst hmk
        exact updateRun_warmup ms _ (by simpa using hlen)
  · exact fun s m h => update_warmup s m h

/-- C4 witness: fresh controller with `W = 3`; two arbitrary measurements
come back with the initial gain 2. -/
theorem claim4_warmup_hold_wit :
    ∃ send, updateRun ⟨5, 1/4, 3/4, 1/20, 2, 1/10, 10, 3, []⟩ [7, 9] =
      .ok (send, List.replicate 2 2) ∧ send.gain = 2 := by
  have h := claim4_warmup_hold.1 5 (1/4) (3/4) (1/20) 2 (1/10) 10 3
    ⟨5, 1/4, 3/4, 1/20, 2, 1/10, 10, 3, []⟩ [7, 9]
    (by norm_num [mkController]) (by norm_num)
  simpa using h

/-- C6: construction raises the `InvalidConfiguration` error (the
`"Require 0 < lower_q < upper_q < 1."` `ValueError`) precisely when the
quantile ordering invariant fails — in that case no state is produced — and
both spec examples (`lower_q = 0.8, upper_q = 0.2` and
`lower_q = upper_q = 0.5`) raise it. -/
theorem claim6_construction_validation :
    (∀ (ws : ℤ) (lq uq sf ig mn mx : ℚ) (W : ℤ),
      mkController ws lq uq sf ig mn mx W =
        .error "Require 0 < lower_q < upper_q < 1." ↔
      ¬ (0 < lq ∧ lq < uq ∧ uq < 1)) ∧
    mkController 200 (8/10) (2/10) (1/20) 1 (1/10) 10 20 =
      .error "Require 0 < lower_q < upper_q < 1." ∧
    mkController 200 (5/10) (5/10) (1/20) 1 (1/10) 10 20 =
      .error "Require 0 < lower_q < upper_q < 1." := by
  refine ⟨?_, ?_, ?_⟩
  · intro ws lq uq sf ig mn mx W
    constructor
    · intro h
      by_contra hv
      simp only [mkController] at h
      rw [if_neg (by simpa using hv)] at h
      split at h
      · exact absurd h (by simp)
      · exact absurd h (by simp)
    · intro hv
      simp only [mkController]
      rw [if_pos hv]
  · norm_num [mkController]
  · norm_num [mkController]

/-- C10: the configuration `window_size = 0, warmup_samples = 0` (outside the
§3 constraints) passes construction, the zero-capacity window stays empty
after the append, and the very first `update` raises the quantile
estimator's empty-input error. -/
theorem claim10_zero_window_construction :
    mkController 0 (1/4) (3/4) (1/20) 1 (1/10) 10 0 =
      .ok ⟨0, 1/4, 3/4, 1/20, 1, 1/10, 10, 0, []⟩ ∧
    appendWindow 0 [] 1 = [] ∧
    update ⟨0, 1/4, 3/4, 1/20, 1, 1/10, 10, 0, []⟩ 1 =
      .error "Cannot compute quantile of empty list." := by
  refine ⟨by norm_num [mkController], by simp [appendWindow], ?_⟩
  simp [update, appendWindow, _quantile]

/-- C1 counterexample: with caller-supplied `initial_gain = 100` outside
`[min_gain, max_gain] = [1/10, 10]` and `warmup_samples = 2`, the first
`update` call returns gain 100 — outside the range — because warm-up holds
the unclamped initial gain. -/
theorem claim1_gain_invariant_cex :
    Except.map Prod.snd
      ((mkController 5 (1/4) (3/4) (1/20) 100 (1/10) 10 2).bind
        (fun s0 => update s0 0)) = .ok 100 ∧
    ¬ ((1/10 : ℚ) ≤ 100 ∧ (100 : ℚ) ≤ 10) := by
  constructor
  · norm_num [mkController, update, appendWindow, Except.bind, Except.map]
  · norm_num

/-- C1 (amended): provided the caller-supplied `initial_gain` itself lies
within `[min_gain, max_gain]`, after every `update` call of an arbitrary
measurement run both the stored gain and every returned gain lie within
`[min_gain, max_gain]`. -/
theorem claim1_gain_invariant (ws : ℤ) (lq uq sf ig mn mx : ℚ) (W : ℤ)
    (s0 send : SECLState) (ms outs : List ℚ)
    (hmk : mkController ws lq uq sf ig mn mx W = .ok s0)
    (h1 : mn ≤ ig) (h2 : ig ≤ mx)
    (hrun : updateRun s0 ms = .ok (send, outs)) :
    (mn ≤ send.gain ∧ send.gain ≤ mx) ∧ ∀ g ∈ outs, mn ≤ g ∧ g ≤ mx := by
  simp only [mkController] at hmk
  split at hmk
  · exact absurd hmk (by simp)
  · split at hmk
    · exact absurd hmk (by simp)
    · rw [Except.ok.injEq] at hmk
      subst hmk
      obtain ⟨c1, c2, c3, c4, c5⟩ :=
        updateRun_gain_inv ms _ send outs hrun h1 h2
      exact ⟨⟨c3, c4⟩, c5⟩

/-- C1 witness: a concrete two-call warm-up run with in-range initial
gain 1. -/
theorem claim1_gain_invariant_wit :
    ((1/10 : ℚ) ≤ (⟨5, 1/4, 3/4, 1/20, 1, 1/10, 10, 3, [7, 9]⟩ :
        SECLState).gain ∧
      (⟨5, 1/4, 3/4, 1/20, 1, 1/10, 10, 3, [7, 9]⟩ :
        SECLState).gain ≤ 10) ∧
    ∀ g ∈ [(1 : ℚ), 1], (1/10 : ℚ) ≤ g ∧ g ≤ 10 :=
  claim1_gain_invariant 5 (1/4) (3/4) (1/20) 1 (1/10) 10 3
    ⟨5, 1/4, 3/4, 1/20, 1, 1/10, 10, 3, []⟩
    ⟨5, 1/4, 3/4, 1/20, 1, 1/10, 10, 3, [7, 9]⟩ [7, 9] [1, 1]
    (by norm_num [mkController]) (by norm_num) (by norm_num)
    (by norm_num [updateRun, update, appendWindow,
      show ((-3 : ℤ)).toNat = 0 from rfl, show ((-4 : ℤ)).toNat = 0 from rfl])

/-- C2: past warm-up, with `low`/`high` the `lower_q`/`upper_q` quantiles of
the appended snapshot (which contains the new measurement whenever the
capacity is at least 1), `update` multiplies the gain by `1 − step_fraction`
when `m > high`, by `1 + step_fraction` when `m < low`, keeps it when
`low ≤ m ≤ high`, then clamps into `[min_gain, max_gain]`, stores and returns
the clamped value. -/
theorem claim2_adaptation_rule (s : SECLState) (m low high : ℚ)
    (hw : s.warmup_samples ≤
      ((appendWindow s.window_size s.history m).length : ℤ))
    (hl : _quantile (appendWindow s.window_size s.history m) s.lower_q =
      .ok low)
    (hh : _quantile (appendWindow s.window_size s.history m) s.upper_q =
      .ok high) :
    update s m =
      .ok ({ s with
             history := appendWindow s.window_size s.history m,
             gain := clampGain s (adjustGain s m low high) },
        clampGain s (adjustGain s m low high)) ∧
    (1 ≤ s.window_size → m ∈ appendWindow s.window_size s.history m) ∧
    (high < m → adjustGain s m low high = s.gain * (1 - s.step_fraction)) ∧
    (¬ high < m → m < low →
      adjustGain s m low high = s.gain * (1 + s.step_fraction)) ∧
    (low ≤ m → m ≤ high → adjustGain s m low high = s.gain) ∧
    (∀ g, g < s.min_gain → clampGain s g = s.min_gain) ∧
    (∀ g, ¬ g < s.min_gain → s.max_gain < g → clampGain s g = s.max_gain) ∧
    (∀ g, s.min_gain ≤ g → g ≤ s.max_gain → clampGain s g = g) := by
  refine ⟨update_adapt s m low high (by omega) hl hh,
    fun hcap => appendWindow_mem_self _ _ _ hcap, ?_, ?_, ?_, ?_, ?_, ?_⟩
  · intro h
    simp only [adjustGain]
    rw [if_pos h]
  · intro h1 h2
    simp only [adjustGain]
    rw [if_neg h1, if_pos h2]
  · intro h1 h2
    simp only [adjustGain]
    rw [if_neg (by linarith), if_neg (by linarith)]
  · intro g h
    simp only [clampGain]
    rw [if_pos h]
  · intro g h1 h2
    simp only [clampGain]
    rw [if_neg h1, if_pos h2]
  · intro g h1 h2
    simp only [clampGain]
    rw [if_neg (by linarith), if_neg (by linarith)]

/-- C2 witness: concrete controller state with window `[1]`, measurement 2;
the quantiles of the snapshot `[1, 2]` are 5/4 and 7/4. -/
theorem claim2_adaptation_rule_wit :
    update ⟨10, 1/4, 3/4, 1/20, 1, 1/10, 10, 1, [1]⟩ 2 =
      .ok (⟨10, 1/4, 3/4, 1/20,
          clampGain ⟨10, 1/4, 3/4, 1/20, 1, 1/10, 10, 1, [1]⟩
            (adjustGain ⟨10, 1/4, 3/4, 1/20, 1, 1/10, 10, 1, [1]⟩ 2 (5/4)
              (7/4)),
          1/10, 10, 1, appendWindow 10 [1] 2⟩,
        clampGain ⟨10, 1/4, 3/4, 1/20, 1, 1/10, 10, 1, [1]⟩
          (adjustGain ⟨10, 1/4, 3/4, 1/20, 1, 1/10, 10, 1, [1]⟩ 2 (5/4)
            (7/4))) :=
  (claim2_adaptation_rule ⟨10, 1/4, 3/4, 1/20, 1, 1/10, 10, 1, [1]⟩ 2
    (5/4) (7/4)
    (by norm_num [appendWindow, show ((-8 : ℤ)).toNat = 0 from rfl])
    (by
      simp [appendWindow, _quantile, pysorted, List.insertionSort,
        List.orderedInsert, pyint, pyIndex,
        show ((-8 : ℤ)).toNat = 0 from rfl]
      norm_num [Int.fract])
    (by
      simp [appendWindow, _quantile, pysorted, List.insertionSort,
        List.orderedInsert, pyint, pyIndex,
        show ((-8 : ℤ)).toNat = 0 from rfl]
      norm_num [Int.fract])).1

/-- C7: the window is a fixed-capacity FIFO: (i) after any run from a fresh
controller, the window length never exceeds `window_size` and the window is
exactly the capacity-suffix `lastN window_size` of the fed measurements;
(ii) an append at capacity evicts the oldest sample; (iii) two runs whose
inputs agree on the last `window_size` entries leave identical windows, so
the next update's quantile computation coincides. -/
theorem claim7_window_fifo :
    (∀ (ws : ℤ) (lq uq sf ig mn mx : ℚ) (W : ℤ) (s0 send : SECLState)
      (ms outs : List ℚ),
      mkController ws lq uq sf ig mn mx W = .ok s0 →
      updateRun s0 ms = .ok (send, outs) →
      (send.history.length : ℤ) ≤ ws ∧ send.window_size = ws ∧
      send.history = lastN ws ms) ∧
    (∀ (cap : ℤ) (w : List ℚ) (x : ℚ), (w.length : ℤ) = cap → 1 ≤ cap →
      appendWindow cap w x = w.tail ++ [x]) ∧
    (∀ (ws : ℤ) (lq uq sf ig mn mx : ℚ) (W : ℤ)
      (s0 send1 send2 : SECLState) (ms1 ms2 outs1 outs2 : List ℚ)
      (m q : ℚ),
      mkController ws lq uq sf ig mn mx W = .ok s0 →
      updateRun s0 ms1 = .ok (send1, outs1) →
      updateRun s0 ms2 = .ok (send2, outs2) →
      lastN ws ms1 = lastN ws ms2 →
      send1.history = send2.history ∧
      _quantile (appendWindow ws send1.history m) q =
        _quantile (appendWindow ws send2.history m) q) := by
  have key : ∀ (ws : ℤ) (lq uq sf ig mn mx : ℚ) (W : ℤ)
      (s0 send : SECLState) (ms outs : List ℚ),
      mkController ws lq uq sf ig mn mx W = .ok s0 →
      updateRun s0 ms = .ok (send, outs) →
      send.window_size = ws ∧ send.history = lastN ws ms ∧ (0 : ℤ) ≤ ws := by
    intro ws lq uq sf ig mn mx W s0 send ms outs hmk hrun
    simp only [mkController] at hmk
    split at hmk
    · exact absurd hmk (by simp)
    · split at hmk
      · exact absurd hmk (by simp)
      · rename_i hneg
        rw [Except.ok.injEq] at hmk
        subst hmk
        have hws : (0 : ℤ) ≤ ws := by omega
        obtain ⟨a1, _, _, _, _, _, a7⟩ :=
          updateRun_history ms _ send outs hrun hws (by simpa using hws)
        rw [List.nil_append] at a7
        exact ⟨a1, a7, hws⟩
  refine ⟨?_, ?_, ?_⟩
  · intro ws lq uq sf ig mn mx W s0 send ms outs hmk hrun
    obtain ⟨k1, k2, k3⟩ := key ws lq uq sf ig mn mx W s0 send ms outs
      hmk hrun
    refine ⟨?_, k1, k2⟩
    rw [k2]
    exact lastN_length_le _ _ k3
  · intro cap w x hlen hcap
    simp only [appendWindow]
    rw [(by omega : (((w.length : ℤ) + 1 - cap).toNat) = 1),
      List.drop_append_of_le_length (by omega), List.drop_one]
  · intro ws lq uq sf ig mn mx W s0 send1 send2 ms1 ms2 outs1 outs2 m q
      hmk hrun1 hrun2 hsuf
    obtain ⟨k1, k2, _⟩ := key ws lq uq sf ig mn mx W s0 send1 ms1 outs1
      hmk hrun1
    obtain ⟨l1, l2, _⟩ := key ws lq uq sf ig mn mx W s0 send2 ms2 outs2
      hmk hrun2
    have heq : send1.history = send2.history := by rw [k2, l2, hsuf]
    exact ⟨heq, by rw [heq]⟩

/-- C7 witness: a fresh controller of capacity 2 fed three measurements keeps
only the last two. -/
theorem claim7_window_fifo_wit :
    (((⟨2, 1/4, 3/4, 1/20, 1, 1/10, 10, 9, [7, 8]⟩ :
        SECLState).history.length : ℤ) ≤ 2 ∧
      (⟨2, 1/4, 3/4, 1/20, 1, 1/10, 10, 9, [7, 8]⟩ :
        SECLState).window_size = 2 ∧
      (⟨2, 1/4, 3/4, 1/20, 1, 1/10, 10, 9, [7, 8]⟩ :
        SECLState).history = lastN 2 [6, 7, 8]) :=
  (claim7_window_fifo.1 2 (1/4) (3/4) (1/20) 1 (1/10) 10 9
    ⟨2, 1/4, 3/4, 1/20, 1, 1/10, 10, 9, []⟩
    ⟨2, 1/4, 3/4, 1/20, 1, 1/10, 10, 9, [7, 8]⟩ [6, 7, 8] [1, 1, 1]
    (by norm_num [mkController])
    (by norm_num [updateRun, update, appendWindow,
      show ((-1 : ℤ)).toNat = 0 from rfl,
      show ((0 : ℤ)).toNat = 0 from rfl,
      show ((1 : ℤ)).toNat = 1 from rfl]))

/-- C8 counterexample: with `step_fraction = 0` (allowed by §3's
`step_fraction ≥ 0`), a post-warm-up call whose measurement 2 lies strictly
above the recomputed upper quantile 7/4 of the snapshot `[1, 2]` leaves the
gain at 1: it does not strictly decrease and is not clamped at
`min_gain = 1/10`. -/
theorem claim8_monotonic_reaction_cex :
    mkController 10 (1/4) (3/4) 0 1 (1/10) 10 1 =
      .ok ⟨10, 1/4, 3/4, 0, 1, 1/10, 10, 1, []⟩ ∧
    update ⟨10, 1/4, 3/4, 0, 1, 1/10, 10, 1, []⟩ 1 =
      .ok (⟨10, 1/4, 3/4, 0, 1, 1/10, 10, 1, [1]⟩, 1) ∧
    appendWindow 10 [1] 2 = [1, 2] ∧
    _quantile [1, 2] (3/4) = .ok (7/4) ∧ ((7/4 : ℚ) < 2) ∧
    update ⟨10, 1/4, 3/4, 0, 1, 1/10, 10, 1, [1]⟩ 2 =
      .ok (⟨10, 1/4, 3/4, 0, 1, 1/10, 10, 1, [1, 2]⟩, 1) ∧
    ¬ ((1 : ℚ) < 1) ∧ ((1 : ℚ) ≠ 1/10) := by
  refine ⟨by norm_num [mkController], ?_, ?_, ?_, by norm_num, ?_,
    by norm_num, by norm_num⟩
  · simp [update, appendWindow, _quantile, pysorted, List.insertionSort,
      List.orderedInsert, pyint, pyIndex,
      show ((-9 : ℤ)).toNat = 0 from rfl]
    norm_num [Int.fract]
  · norm_num [appendWindow, show ((-8 : ℤ)).toNat = 0 from rfl]
  · simp [_quantile, pysorted, List.insertionSort, List.orderedInsert,
      pyint, pyIndex]
    norm_num [Int.fract]
  · simp [update, appendWindow, _quantile, pysorted, List.insertionSort,
      List.orderedInsert, pyint, pyIndex,
      show ((-8 : ℤ)).toNat = 0 from rfl]
    norm_num [Int.fract]

/-- C8 (amended): on a post-warm-up call whose measurement lies strictly
above the freshly recomputed upper quantile, provided `step_fraction > 0` and
`0 < min_gain ≤ max_gain`, the gain strictly decreases whenever it still
exceeds `min_gain`, never falls below `min_gain`, and once clamped at
`min_gain` it stays there — so a run of such calls decreases the gain
strictly on each call until it is clamped at `min_gain`. -/
theorem claim8_monotonic_reaction (s : SECLState) (m low high : ℚ)
    (hw : ¬ ((appendWindow s.window_size s.history m).length : ℤ) <
      s.warmup_samples)
    (hl : _quantile (appendWindow s.window_size s.history m) s.lower_q =
      .ok low)
    (hh : _quantile (appendWindow s.window_size s.history m) s.upper_q =
      .ok high)
    (hm : high < m)
    (hstep : 0 < s.step_fraction) (hmin0 : 0 < s.min_gain)
    (hminmax : s.min_gain ≤ s.max_gain) :
    ∃ s', update s m = .ok (s', s'.gain) ∧
      (s.min_gain < s.gain → s'.gain < s.gain) ∧
      (s.gain = s.min_gain → s'.gain = s.min_gain) ∧
      (s.min_gain ≤ s.gain → s.min_gain ≤ s'.gain) :=
  update_above_high s m low high hw hl hh hm hstep hmin0 hminmax

/-- C8 witness: with `step_fraction = 1/20` the same scenario strictly
decreases the gain. -/
theorem claim8_monotonic_reaction_wit :
    ∃ s', update ⟨10, 1/4, 3/4, 1/20, 1, 1/10, 10, 1, [1]⟩ 2 =
        .ok (s', s'.gain) ∧
      ((1/10 : ℚ) < 1 → s'.gain < 1) ∧
      ((1 : ℚ) = 1/10 → s'.gain = 1/10) ∧
      ((1/10 : ℚ) ≤ 1 → (1/10 : ℚ) ≤ s'.gain) :=
  claim8_monotonic_reaction ⟨10, 1/4, 3/4, 1/20, 1, 1/10, 10, 1, [1]⟩ 2
    (5/4) (7/4)
    (by norm_num [appendWindow, show ((-8 : ℤ)).toNat = 0 from rfl])
    (by
      simp [appendWindow, _quantile, pysorted, List.insertionSort,
        List.orderedInsert, pyint, pyIndex,
        show ((-8 : ℤ)).toNat = 0 from rfl]
      norm_num [Int.fract])
    (by
      simp [appendWindow, _quantile, pysorted, List.insertionSort,
        List.orderedInsert, pyint, pyIndex,
        show ((-8 : ℤ)).toNat = 0 from rfl]
      norm_num [Int.fract])
    (by norm_num) (by norm_num) (by norm_num) (by norm_num)

/-- C9 counterexample: with `initial_gain = 1/100` below `min_gain = 1/10`
and `warmup_samples = 3`, feeding the constant measurement 5 three times
gives returns `[1/100, 1/100, 1/10]`: on the third call the window `[5, 5,
5]` is constant-valued, the controller is past warm-up, the measurement
equals the constant — yet the gain changes from 1/100 to 1/10, because the
clamp still runs after the in-band no-change branch. -/
theorem claim9_band_noop_cex :
    (mkController 10 (1/4) (3/4) (1/20) (1/100) (1/10) 10 3).bind
      (fun s0 => updateRun s0 [5, 5, 5]) =
      .ok (⟨10, 1/4, 3/4, 1/20, 1/10, 1/10, 10, 3, [5, 5, 5]⟩,
        [1/100, 1/100, 1/10]) ∧
    ((1/100 : ℚ) ≠ 1/10) := by
  constructor
  · have hmk : mkController 10 (1/4) (3/4) (1/20) (1/100) (1/10) 10 3 =
        .ok ⟨10, 1/4, 3/4, 1/20, 1/100, 1/10, 10, 3, []⟩ := by
      norm_num [mkController]
    have h1 : update ⟨10, 1/4, 3/4, 1/20, 1/100, 1/10, 10, 3, []⟩ 5 =
        .ok (⟨10, 1/4, 3/4, 1/20, 1/100, 1/10, 10, 3, [5]⟩, 1/100) := by
      norm_num [update, appendWindow, show ((-9 : ℤ)).toNat = 0 from rfl]
    have h2 : update ⟨10, 1/4, 3/4, 1/20, 1/100, 1/10, 10, 3, [5]⟩ 5 =
        .ok (⟨10, 1/4, 3/4, 1/20, 1/100, 1/10, 10, 3, [5, 5]⟩, 1/100) := by
      norm_num [update, appendWindow, show ((-8 : ℤ)).toNat = 0 from rfl]
    have h3 : update ⟨10, 1/4, 3/4, 1/20, 1/100, 1/10, 10, 3, [5, 5]⟩ 5 =
        .ok (⟨10, 1/4, 3/4, 1/20, 1/10, 1/10, 10, 3, [5, 5, 5]⟩, 1/10) := by
      simp [update, appendWindow, _quantile, pysorted, List.insertionSort,
        List.orderedInsert, pyint, pyIndex,
        show ((-7 : ℤ)).toNat = 0 from rfl]
      norm_num [Int.fract, show Int.toNat 1 = 1 from rfl,
        show Int.toNat 2 = 2 from rfl]
    rw [hmk]
    simp only [Except.bind, updateRun, h1, h2, h3]
  · norm_num

/-- C9 (amended): when the window holds a constant-valued history filling at
least `warmup_samples`, the configuration is sane (`window_size ≥ 1`,
quantile fractions in `[0, 1]`) and the gain already lies within
`[min_gain, max_gain]` (as it does after any completed adaptation call),
repeated update calls with that same constant measurement leave the gain
unchanged on every call: both quantiles equal the measurement, the inclusive
in-band branch is taken, and the clamp is a no-op. -/
theorem claim9_band_noop (s : SECLState) (c : ℚ) (k : ℕ)
    (hlq0 : 0 ≤ s.lower_q) (hlq1 : s.lower_q ≤ 1)
    (huq0 : 0 ≤ s.upper_q) (huq1 : s.upper_q ≤ 1)
    (hcap : 1 ≤ s.window_size)
    (hlen : (s.history.length : ℤ) ≤ s.window_size)
    (hwarm : s.warmup_samples ≤ (s.history.length : ℤ))
    (hconst : ∀ x ∈ s.history, x = c)
    (h1 : s.min_gain ≤ s.gain) (h2 : s.gain ≤ s.max_gain) :
    ∃ sf, updateRun s (List.replicate k c) =
      .ok (sf, List.replicate k s.gain) ∧ sf.gain = s.gain :=
  updateRun_const k s c hlq0 hlq1 huq0 huq1 hcap hlen hwarm hconst h1 h2

/-- C9 witness: a constant window `[5, 5]` past warm-up with in-range gain 1;
two more 5-measurements return `[1, 1]` and keep the gain at 1. -/
theorem claim9_band_noop_wit :
    ∃ sf, updateRun ⟨10, 1/4, 3/4, 1/20, 1, 1/10, 10, 2, [5, 5]⟩
        (List.replicate 2 5) = .ok (sf, List.replicate 2 1) ∧
      sf.gain = 1 :=
  claim9_band_noop ⟨10, 1/4, 3/4, 1/20, 1, 1/10, 10, 2, [5, 5]⟩ 5 2
    (by norm_num) (by norm_num) (by norm_num) (by norm_num) (by norm_num)
    (by norm_num) (by norm_num)
    (by
      intro x hx
      rcases List.mem_cons.mp hx with h | h
      · exact h
      · simpa using h)
    (by norm_num) (by norm_num)
